import Mathlib

/-!
Verification of the NetAttacksA RPL trace-analysis scripts.

The development shallowly embeds the metric-extraction code of the
repository:

* `parse_pcap_metrics` together with its record loop (main.py, the
  `PacketTraceParser` of the specification);
* `parse_log_metrics` together with the line matchers built from the
  regular expressions `ETX_PATTERN`, `RPL_CTRL_PATTERN` and
  `ENERGY_PATTERN` (main.py, the `LogTraceParser`);
* `parse_log` of omerw.py (the `EventCorrelator` variant).

Python floats are modelled as rationals, Python ints as `Nat`/`Int`,
file lines as `List Char` (strings are scanned character by character,
mirroring the regular-expression searches of the source), and a file
whose open/read fails as the `Except.error` branch of the input.
-/

namespace NetAttacksA

/-! ## Character and token helpers -/

/-- Whitespace class of the regular-expression `\s` (ASCII range). -/
def isWS (c : Char) : Bool :=
  c = ' ' || c = '\t' || c = '\n' || c = '\r' || c = '\x0b' || c = '\x0c'

/-- Word-character class of the regular-expression `\w` (ASCII range),
used for the `\b` boundaries of `RPL_CTRL_PATTERN`. -/
def isWordC (c : Char) : Bool := c.isAlphanum || c = '_'

/-- ASCII lower-casing, modelling `str.lower()` / `re.I` on the ASCII
log lines of the repository. -/
def lowerChar (c : Char) : Char := c.toLower

/-- Substring test: does `needle` occur contiguously inside `hay`?
Models Python's `needle in hay` and an unanchored regex literal. -/
def containsSub (needle hay : List Char) : Bool :=
  hay.tails.any fun t => needle.isPrefixOf t

/-- Maximal digit prefix of a character list, together with the rest;
the `\d+` / `\d*` greedy digit run of the source regexes. -/
def takeDigits : List Char → List Char × List Char
  | [] => ([], [])
  | c :: cs =>
    if c.isDigit then
      let p := takeDigits cs
      (c :: p.1, p.2)
    else ([], c :: cs)

/-- Numeric value of a digit run (`int(...)` on a `\d+` group). -/
def digitsVal (l : List Char) : ℕ :=
  l.foldl (fun n c => 10 * n + (c.toNat - 48)) 0

/-- Parse the group `(\d+\.?\d*)` at the head of `l`, as `float(...)`
does on the matched text.  Returns `none` when no digit is present. -/
def parseNumAt (l : List Char) : Option ℚ :=
  let p := takeDigits l
  if p.1 = [] then none
  else
    match p.2 with
    | '.' :: r2 =>
      let q := takeDigits r2
      some ((digitsVal p.1 : ℚ) + (digitsVal q.1 : ℚ) / (10 : ℚ) ^ q.1.length)
    | _ => some (digitsVal p.1)

/-! ## PacketTraceParser (`parse_pcap_metrics`, main.py)

A decoded capture record carries the data the loop body reads:
`float(pkt.sniff_timestamp)` (with `tsOk = false` when that conversion
raises, skipping the record), the `ipv6`/`icmpv6` layer flags, and
`int(getattr(pkt.icmpv6, 'type', 0))` (with `typeOk = false` when that
conversion raises, which aborts the record body after the send side
already ran). -/

structure PcapRecord where
  timestamp : ℚ
  tsOk : Bool
  hasIpv6 : Bool
  hasIcmpv6 : Bool
  typeOk : Bool
  icmpv6Type : ℤ
deriving Repr, DecidableEq

structure PcapState where
  sent : ℕ
  received : ℕ
  send_times : List ℚ
  recv_times : List ℚ
deriving Repr, DecidableEq

/-- One iteration of the `for pkt in cap` loop of `parse_pcap_metrics`. -/
def pcapStep (st : PcapState) (r : PcapRecord) : PcapState :=
  if !r.tsOk then st
  else if r.hasIpv6 || r.hasIcmpv6 then
    let st1 : PcapState :=
      ⟨st.sent + 1, st.received, st.send_times ++ [r.timestamp], st.recv_times⟩
    if r.hasIcmpv6 then
      if !r.typeOk then st1
      else if r.icmpv6Type == 129 || r.icmpv6Type == 2 || r.icmpv6Type == 155 then
        ⟨st1.sent, st1.received + 1, st1.send_times, st1.recv_times ++ [r.timestamp]⟩
      else st1
    else st1
  else st

/-- The accumulator state after the whole capture loop. -/
def runPcap (rs : List PcapRecord) : PcapState :=
  rs.foldl pcapStep ⟨0, 0, [], []⟩

/-- A record enters the send side of the loop: decodable timestamp and
an `ipv6` or `icmpv6` layer. -/
def isNet (r : PcapRecord) : Bool := r.tsOk && (r.hasIpv6 || r.hasIcmpv6)

/-- A record additionally enters the receive side: `icmpv6` layer with a
decodable type in the accepted-reply set `[129, 2, 155]`. -/
def isReply (r : PcapRecord) : Bool :=
  isNet r && r.hasIcmpv6 && r.typeOk &&
    (r.icmpv6Type == 129 || r.icmpv6Type == 2 || r.icmpv6Type == 155)

/-- The `send_times` list produced by the loop, as a filter. -/
def sendTimesOf (rs : List PcapRecord) : List ℚ :=
  (rs.filter isNet).map (·.timestamp)

/-- The `recv_times` list produced by the loop, as a filter. -/
def recvTimesOf (rs : List PcapRecord) : List ℚ :=
  (rs.filter isReply).map (·.timestamp)

/-- Greatest element of a list (Python `max` on a nonempty list). -/
def listMax : List ℚ → ℚ
  | [] => 0
  | x :: xs => xs.foldl max x

/-- Least element of a list (Python `min` on a nonempty list). -/
def listMin : List ℚ → ℚ
  | [] => 0
  | x :: xs => xs.foldl min x

/-- `pdr = (received / sent * 100) if sent > 0 else 0.0`. -/
def pcapPDR (rs : List PcapRecord) : ℚ :=
  if 0 < (runPcap rs).sent
  then ((runPcap rs).received : ℚ) / ((runPcap rs).sent : ℚ) * 100 else 0

/-- `ae2ed = ((sum(recv_times) - sum(send_times[:len(recv_times)])) /
len(recv_times)) * 1000 if recv_times else 0.0`. -/
def pcapAe2ed (rs : List PcapRecord) : ℚ :=
  if (runPcap rs).recv_times = [] then 0
  else
    ((runPcap rs).recv_times.sum
        - ((runPcap rs).send_times.take (runPcap rs).recv_times.length).sum) /
      ((runPcap rs).recv_times.length : ℚ) * 1000

/-- `duration = max(recv_times + send_times) - min(recv_times + send_times)
if recv_times and send_times else 1.0`. -/
def pcapDuration (rs : List PcapRecord) : ℚ :=
  if (runPcap rs).recv_times ≠ [] ∧ (runPcap rs).send_times ≠ [] then
    listMax ((runPcap rs).recv_times ++ (runPcap rs).send_times)
      - listMin ((runPcap rs).recv_times ++ (runPcap rs).send_times)
  else 1

/-- `throughput = (received / duration) if duration > 0 else 0.0`. -/
def pcapThroughput (rs : List PcapRecord) : ℚ :=
  if 0 < pcapDuration rs
  then ((runPcap rs).received : ℚ) / pcapDuration rs else 0

structure PcapMetrics where
  PDR : ℚ
  averageEndToEndDelay : ℚ
  throughput : ℚ
deriving Repr, DecidableEq

/-- `parse_pcap_metrics`: a missing or unparsable capture file (the
`is_file` check and the `except` around `pyshark.FileCapture`) yields the
fallback record; otherwise the metrics are derived from the loop. -/
def parse_pcap_metrics (input : Except String (List PcapRecord)) : PcapMetrics :=
  match input with
  | .error _ => ⟨0, 0, 0⟩
  | .ok rs => ⟨pcapPDR rs, pcapAe2ed rs, pcapThroughput rs⟩

/-! ## EventCorrelator (`parse_log`, omerw.py)

Log lines are `List Char`.  The per-line extractors mirror the source:
`re.match(r"(\d+):(\d+)\.(\d+)", line)` for the timestamp,
case-insensitive substring tests for the send/receive events,
`re.search(r"\sP\s", line)` plus `re.findall(r"\d+", line)` for the
powertrace energy columns, and `float(line.strip().split()[-1])` for the
ETX sample. -/

/-- Timestamp of a line: `re.match(r"(\d+):(\d+)\.(\d+)", line)` with
`(minutes * 60 + seconds) * 1000 + millis`; `none` when the line does
not start with `mm:ss.mmm`. -/
def tsOf (line : List Char) : Option ℕ :=
  let m := takeDigits line
  if m.1 = [] then none
  else
    match m.2 with
    | ':' :: r2 =>
      let s := takeDigits r2
      if s.1 = [] then none
      else
        match s.2 with
        | '.' :: r4 =>
          let ms := takeDigits r4
          if ms.1 = [] then none
          else some ((digitsVal m.1 * 60 + digitsVal s.1) * 1000 + digitsVal ms.1)
        | _ => none
    | _ => none

/-- `"broadcast message sent" in line.lower()`. -/
def isSentLine (line : List Char) : Bool :=
  containsSub ("broadcast message sent".toList) (line.map lowerChar)

/-- `"broadcast message received" in line.lower()`. -/
def isRecvLine (line : List Char) : Bool :=
  containsSub ("broadcast message received".toList) (line.map lowerChar)

/-- `re.search(r"\sP\s", line)`: a `P` framed by whitespace. -/
def hasPMarker (line : List Char) : Bool :=
  line.tails.any fun t =>
    match t with
    | a :: 'P' :: b :: _ => isWS a && isWS b
    | _ => false

/-- Helper for `digitRuns`: accumulates the current digit run
(in reverse) while scanning. -/
def digitRunsAux : List Char → List Char → List ℕ
  | [], cur => if cur = [] then [] else [digitsVal cur.reverse]
  | c :: cs, cur =>
    if c.isDigit then digitRunsAux cs (c :: cur)
    else if cur = [] then digitRunsAux cs []
    else digitsVal cur.reverse :: digitRunsAux cs []

/-- `re.findall(r"\d+", line)` followed by `int(...)`: the values of the
maximal digit runs of the line, in order. -/
def digitRuns (line : List Char) : List ℕ := digitRunsAux line []

/-- Helper for `tokens`: accumulates the current token (in reverse). -/
def tokensAux : List Char → List Char → List (List Char)
  | [], cur => if cur = [] then [] else [cur.reverse]
  | c :: cs, cur =>
    if isWS c then
      if cur = [] then tokensAux cs [] else cur.reverse :: tokensAux cs []
    else tokensAux cs (c :: cur)

/-- `line.strip().split()`: the whitespace-separated tokens of a line. -/
def tokens (line : List Char) : List (List Char) := tokensAux line []

/-- Parse an unsigned decimal literal covering the whole list:
digits, optionally a dot and further digits, at least one digit in
total.  Modelled from the spec: the per-line recoverable `float(...)`
conversion of an arbitrary token (the source accepts further Python
float spellings such as exponents, which no claim depends on). -/
def parseUnsigned (l : List Char) : Option ℚ :=
  let d1 := takeDigits l
  match d1.2 with
  | '.' :: r2 =>
    let d2 := takeDigits r2
    if d2.2 = [] ∧ (d1.1 ≠ [] ∨ d2.1 ≠ []) then
      some ((digitsVal d1.1 : ℚ) + (digitsVal d2.1 : ℚ) / (10 : ℚ) ^ d2.1.length)
    else none
  | [] => if d1.1 ≠ [] then some (digitsVal d1.1) else none
  | _ => none

/-- `float(token)` on a full token with an optional sign; `none` models
the `except: pass` path. -/
def parseFloatTok : List Char → Option ℚ
  | '-' :: r => (parseUnsigned r).map (fun v => -v)
  | '+' :: r => parseUnsigned r
  | l => parseUnsigned l

/-- Accumulator state of the `parse_log` loop of omerw.py. -/
structure CorrState where
  sent : ℕ
  received : ℕ
  delays : List ℤ
  energy : ℤ
  etx : List ℚ
  firstTime : Option ℕ
  lastTime : Option ℕ
  sendTs : List ℕ
deriving Repr, DecidableEq

/-- Initial accumulators of `parse_log`. -/
def corrInit : CorrState := ⟨0, 0, [], 0, [], none, none, []⟩

/-- One iteration of the `for line in f` loop of `parse_log` (omerw.py).
`send_times` is a dict keyed by the strictly increasing packet counter,
so insertion order makes `list(send_times.values())[-1]` the last
appended timestamp: it is modelled as the list `sendTs`. -/
def corrStep (st : CorrState) (line : List Char) : CorrState :=
  let ts := tsOf line
  let st1 :=
    match ts with
    | some t => { st with firstTime := some (st.firstTime.getD t), lastTime := some t }
    | none => st
  let st2 :=
    if isSentLine line then
      match ts with
      | some t => { st1 with sent := st1.sent + 1, sendTs := st1.sendTs ++ [t] }
      | none => { st1 with sent := st1.sent + 1 }
    else st1
  let st3 :=
    if isRecvLine line then
      match ts, st2.sendTs.getLast? with
      | some t, some s =>
        { st2 with received := st2.received + 1, delays := st2.delays ++ [(t : ℤ) - (s : ℤ)] }
      | _, _ => { st2 with received := st2.received + 1 }
    else st2
  let st4 :=
    if hasPMarker line then
      if 5 < (digitRuns line).length then
        { st3 with energy := st3.energy
            + (((digitRuns line).getD 4 0 : ℤ) + ((digitRuns line).getD 5 0 : ℤ)) }
      else st3
    else st3
  if containsSub ("ETX".toList) line then
    match (tokens line).getLast? with
    | some tok =>
      match parseFloatTok tok with
      | some v => { st4 with etx := st4.etx ++ [v] }
      | none => st4
    | none => st4
  else st4

/-- The accumulator state after the whole log. -/
def corrRun (lines : List (List Char)) : CorrState :=
  lines.foldl corrStep corrInit

/-- Python's `round(x, 2)` modelled as rounding `100 x` to an integer
(Python rounds half to even, Mathlib `round` rounds half up; no claim
depends on the tie case). -/
def round2 (x : ℚ) : ℚ := ((round (x * 100) : ℤ) : ℚ) / 100

structure CorrMetrics where
  PDR : ℚ
  averageEndToEndDelay : ℚ
  overheadPackets : ℤ
  energyConsumption : ℤ
  throughput : ℚ
  averageEtx : ℚ
deriving Repr, DecidableEq

/-- The raw (unrounded) average delay of `parse_log`:
`sum(delays) / len(delays) if delays else 0`. -/
def corrAvgDelay (lines : List (List Char)) : ℚ :=
  if (corrRun lines).delays = [] then 0
  else ((corrRun lines).delays.sum : ℚ) / ((corrRun lines).delays.length : ℚ)

/-- The duration of `parse_log`: `(last_time - first_time) / 1000 if
(first_time and last_time) else 1` — note Python truthiness: a timestamp
of exactly 0 is falsy. -/
def corrDuration (lines : List (List Char)) : ℚ :=
  match (corrRun lines).firstTime, (corrRun lines).lastTime with
  | some f, some l =>
    if f = 0 ∨ l = 0 then 1 else ((l : ℚ) - (f : ℚ)) / 1000
  | _, _ => 1

/-- `parse_log` of omerw.py: the metrics dictionary. -/
def parse_log (lines : List (List Char)) : CorrMetrics :=
  { PDR := round2 (if 0 < (corrRun lines).sent
      then ((corrRun lines).received : ℚ) / ((corrRun lines).sent : ℚ) * 100 else 0)
    averageEndToEndDelay := round2 (corrAvgDelay lines)
    overheadPackets := ((corrRun lines).sent : ℤ) - ((corrRun lines).received : ℤ)
    energyConsumption := (corrRun lines).energy
    throughput := round2 (if 0 < corrDuration lines
      then ((corrRun lines).received : ℚ) / corrDuration lines else 0)
    averageEtx := round2 (if (corrRun lines).etx = [] then 0
      else (corrRun lines).etx.sum / ((corrRun lines).etx.length : ℚ)) }

/-- The send timestamps appended by one line. -/
def newSendTs (line : List Char) : List ℕ :=
  match tsOf line, isSentLine line with
  | some t, true => [t]
  | _, _ => []

/-- The delay samples appended by one line, given the send-timestamp
list before the line. -/
def newDelays (sendTs : List ℕ) (line : List Char) : List ℤ :=
  if isRecvLine line then
    match tsOf line, (sendTs ++ newSendTs line).getLast? with
    | some t, some s => [(t : ℤ) - (s : ℤ)]
    | _, _ => []
  else []

/-- The energy contribution of one line. -/
def newEnergy (line : List Char) : ℤ :=
  if hasPMarker line ∧ 5 < (digitRuns line).length then
    ((digitRuns line).getD 4 0 : ℤ) + ((digitRuns line).getD 5 0 : ℤ)
  else 0

/-- The ETX samples appended by one line. -/
def newEtx (line : List Char) : List ℚ :=
  if containsSub ("ETX".toList) line then
    match (tokens line).getLast? with
    | some tok =>
      match parseFloatTok tok with
      | some v => [v]
      | none => []
    | none => []
  else []

/-! Specification-side reformulations for the EventCorrelator. -/

/-- Amended-claim delay computation: only the most recently recorded
send timestamp is kept, it is never consumed, and a receive with a
timestamp pairs with it when one exists. -/
def lastSendDelaysStep : Option ℕ × List ℤ → List Char → Option ℕ × List ℤ
  | (last, ds), line =>
    let ts := tsOf line
    let last2 :=
      match ts, isSentLine line with
      | some t, true => some t
      | _, _ => last
    let ds2 :=
      if isRecvLine line then
        match ts, last2 with
        | some t, some s => ds ++ [(t : ℤ) - (s : ℤ)]
        | _, _ => ds
      else ds
    (last2, ds2)

/-- The delay samples predicted by the amended claim. -/
def delaysSpecNoConsume (lines : List (List Char)) : List ℤ :=
  (lines.foldl lastSendDelaysStep (none, [])).2

/-- Modelled from the claim wording of C4: LIFO pairing in which the
matched send is consumed (popped) and a receive with no outstanding
send contributes no delay sample. -/
def lifoConsumeStep : List ℕ × List ℤ → List Char → List ℕ × List ℤ
  | (stack, ds), line =>
    let ts := tsOf line
    let stack1 :=
      match ts, isSentLine line with
      | some t, true => stack ++ [t]
      | _, _ => stack
    if isRecvLine line then
      match ts with
      | some t =>
        match stack1.getLast? with
        | some s => (stack1.dropLast, ds ++ [(t : ℤ) - (s : ℤ)])
        | none => (stack1, ds)
      | none => (stack1, ds)
    else (stack1, ds)

/-- The delay samples predicted by claim C4 as stated (with
consumption). -/
def delaysClaimLIFO (lines : List (List Char)) : List ℤ :=
  (lines.foldl lifoConsumeStep ([], [])).2

/-! Concrete log lines for the EventCorrelator. -/

/-- A send event at 00:01.000 (timestamp 1000 ms). -/
def lineSent1 : List Char := "00:01.000 ID:1 broadcast message sent".toList

/-- A receive event at 00:02.000 (timestamp 2000 ms). -/
def lineRecv2 : List Char := "00:02.000 ID:2 broadcast message received".toList

/-- A receive event at 00:03.000 (timestamp 3000 ms). -/
def lineRecv3 : List Char := "00:03.000 ID:3 broadcast message received".toList

/-- One send followed by two receives: the second receive has no
outstanding unconsumed send. -/
def omerwLines : List (List Char) := [lineSent1, lineRecv2, lineRecv3]

/-! ## LogTraceParser (`parse_log_metrics`, main.py)

The three module-level regular expressions are modelled as executable
character scanners over lower-cased lines (`re.I`); `re.search` tries
every start position in order, which the `tails`-based scanners mirror.
A `\b` boundary to the left of a literal holds exactly at position 0 or
right after a non-word character, which `bdScan` implements. -/

/-- `ETX_PATTERN = re.compile(r'ETX\s*[:=]\s*(\d+\.?\d*)', re.I)`:
match attempt at one start position of the lower-cased line. -/
def etxAt (l : List Char) : Option ℚ :=
  if ("etx".toList).isPrefixOf l then
    match (l.drop 3).dropWhile isWS with
    | c :: r2 => if c = ':' ∨ c = '=' then parseNumAt (r2.dropWhile isWS) else none
    | [] => none
  else none

/-- `ETX_PATTERN.search(line)` with the group converted by `float`. -/
def etxSearch (line : List Char) : Option ℚ :=
  (line.map lowerChar).tails.findSome? etxAt

/-- `ENERGY_PATTERN = re.compile(r'Total\s*energy:\s*(\d+\.?\d*)', re.I)`:
match attempt at one start position. -/
def energyAt (l : List Char) : Option ℚ :=
  if ("total".toList).isPrefixOf l then
    if ("energy:".toList).isPrefixOf ((l.drop 5).dropWhile isWS) then
      parseNumAt (((((l.drop 5).dropWhile isWS)).drop 7).dropWhile isWS)
    else none
  else none

/-- `ENERGY_PATTERN.search(line)` with the group converted by `float`. -/
def energySearch (line : List Char) : Option ℚ :=
  (line.map lowerChar).tails.findSome? energyAt

/-- `re.search(r'Node id is set to (\d+)', line)`: match attempt at one
start position (case-sensitive, no `re.I`). -/
def nodeIdAt (l : List Char) : Option (List Char) :=
  if ("Node id is set to ".toList).isPrefixOf l then
    if (takeDigits (l.drop 18)).1 = [] then none else some (takeDigits (l.drop 18)).1
  else none

/-- The node-id search over the whole line; the digit group is kept as a
string (`node_id.group(1)`), so `"01"` and `"1"` are distinct ids. -/
def nodeIdSearch (line : List Char) : Option (List Char) :=
  line.tails.findSome? nodeIdAt

/-- Lower-cased keyword tokens of `RPL_CTRL_PATTERN`. -/
def tokDio : List Char := "dio".toList

def tokDAO : List Char := "dao".toList

def tokDIS : List Char := "dis".toList

def tokRPL : List Char := "rpl".toList

def tokICMPV6 : List Char := "icmpv6".toList

def tok155 : List Char := "155".toList

/-- `\b` to the right of a literal: the next character, if any, is not
a word character. -/
def bdAfter : List Char → Bool
  | [] => true
  | c :: _ => !isWordC c

/-- `(DIO|DAO|DIS)\b` at the head of `l`. -/
def ctrlKwAt (l : List Char) : Bool :=
  (tokDio.isPrefixOf l || tokDAO.isPrefixOf l || tokDIS.isPrefixOf l) && bdAfter (l.drop 3)

/-- `RPL\s*(DIO|DAO|DIS)\b` at the head of `l`. -/
def rplKwAt (l : List Char) : Bool :=
  tokRPL.isPrefixOf l && ctrlKwAt ((l.drop 3).dropWhile isWS)

/-- Search for a pattern guarded by a leading `\b`: it matches at
position 0 or right after a non-word character. -/
def bdScan (p : List Char → Bool) (l : List Char) : Bool :=
  p l || l.tails.any fun t =>
    match t with
    | c :: rest => !isWordC c && p rest
    | [] => false

/-- `icmpv6.*(rpl|155)` at the head of `l`. -/
def icmpAt (l : List Char) : Bool :=
  tokICMPV6.isPrefixOf l && (containsSub tokRPL (l.drop 6) || containsSub tok155 (l.drop 6))

/-- `RPL_CTRL_PATTERN.search(line)` for
`re.compile(r'(\bRPL\s*(DIO|DAO|DIS)\b|\b(DIO|DAO|DIS)\b|icmpv6.*(rpl|155))', re.I)`. -/
def RPL_CTRL_PATTERN (line : List Char) : Bool :=
  bdScan rplKwAt (line.map lowerChar) ||
  bdScan ctrlKwAt (line.map lowerChar) ||
  (line.map lowerChar).tails.any icmpAt

/-- Accumulators of the `parse_log_metrics` loop. -/
structure LogState where
  energy_score : ℚ
  etx_values : List ℚ
  ctrl_count : ℕ
  node_ids : List (List Char)
deriving Repr

/-- Adding a digit string to the `node_ids` set. -/
def insertNodeId (d : List Char) (ids : List (List Char)) : List (List Char) :=
  if d ∈ ids then ids else ids ++ [d]

/-- One iteration of the `for line in f` loop of `parse_log_metrics`. -/
def logStep (st : LogState) (line : List Char) : LogState :=
  let st1 :=
    if containsSub ("Node id is set to".toList) line then
      match nodeIdSearch line with
      | some d => { st with node_ids := insertNodeId d st.node_ids }
      | none => st
    else st
  let st2 :=
    match etxSearch line with
    | some v => { st1 with etx_values := st1.etx_values ++ [v] }
    | none => st1
  let st3 :=
    if RPL_CTRL_PATTERN line then { st2 with ctrl_count := st2.ctrl_count + 1 } else st2
  match energySearch line with
  | some v => { st3 with energy_score := v }
  | none =>
    if containsSub ("TX".toList) line && containsSub ("RX".toList) line then
      { st3 with energy_score := st3.energy_score + 1 }
    else st3

/-- The accumulator state after the whole log. -/
def logRun (lines : List (List Char)) : LogState :=
  lines.foldl logStep ⟨0, [], 0, []⟩

structure LogMetrics where
  overheadPackets : ℚ
  energyConsumption : ℚ
  averageETX : ℚ
deriving Repr, DecidableEq

/-- The metrics dictionary derived after the loop:
`avg_etx = sum/len if etx_values else 1.0`,
`node_count = max(1, len(node_ids))`,
`normalized_ctrl = ctrl_count / node_count`. -/
def logMetricsOf (lines : List (List Char)) : LogMetrics :=
  { overheadPackets := ((logRun lines).ctrl_count : ℚ)
      / ((max 1 (logRun lines).node_ids.length : ℕ) : ℚ)
    energyConsumption := (logRun lines).energy_score
    averageETX := if (logRun lines).etx_values = [] then 1
      else (logRun lines).etx_values.sum / (((logRun lines).etx_values.length : ℕ) : ℚ) }

/-- `parse_log_metrics`: an unreadable log file (the `except` around
`open`/iteration) yields the fallback record `{'Overhead Packets': 0.0,
'Energy Consumption': 0.0, 'Average ETX': 1.0}`; otherwise the metrics
are derived from the loop. -/
def parse_log_metrics (input : Except String (List (List Char))) : LogMetrics :=
  match input with
  | .error _ => ⟨0, 0, 1⟩
  | .ok lines => logMetricsOf lines

/-! Specification-side reformulations for the LogTraceParser. -/

/-- The energy accumulator of `parse_log_metrics` in isolation. -/
def energyFold (acc : ℚ) : List (List Char) → ℚ
  | [] => acc
  | l :: ls =>
    energyFold
      (match energySearch l with
       | some v => v
       | none =>
         if containsSub ("TX".toList) l && containsSub ("RX".toList) l then acc + 1
         else acc)
      ls

/-- A line matched by the explicit `Total energy` pattern. -/
def isTotalLine (l : List Char) : Bool := (energySearch l).isSome

/-- A heuristic energy line: no explicit match, but both the
transmit-marker `TX` and the receive-marker `RX` occur. -/
def heurLine (l : List Char) : Bool :=
  (energySearch l).isNone &&
    (containsSub ("TX".toList) l && containsSub ("RX".toList) l)

/-- The number of the last explicit `Total energy` line, if any. -/
def lastTotal? : List (List Char) → Option ℚ
  | [] => none
  | l :: ls =>
    match lastTotal? ls with
    | some v => some v
    | none => energySearch l

/-- Heuristic lines with no later explicit `Total energy` line. -/
def countHeurAfter : List (List Char) → ℕ
  | [] => 0
  | l :: ls =>
    (if heurLine l && !(ls.any isTotalLine) then 1 else 0) + countHeurAfter ls

/-- `\b` on the left of a match, on the split: the preceding part ends
in a non-word character or is empty. -/
def BdBeforeP (p : List Char) : Prop := ∀ c, p.getLast? = some c → isWordC c = false

/-- `\b` on the right of a match, on the split: the following part
starts with a non-word character or is empty. -/
def BdAfterP (q : List Char) : Prop := ∀ c, q.head? = some c → isWordC c = false

/-- Declarative form of `\b(DIO|DAO|DIS)\b` on the lower-cased line. -/
def CtrlWholeWord (low : List Char) : Prop :=
  ∃ kw p q, kw ∈ [tokDio, tokDAO, tokDIS] ∧ low = p ++ kw ++ q ∧ BdBeforeP p ∧ BdAfterP q

/-- Declarative form of `\bRPL\s*(DIO|DAO|DIS)\b` on the lower-cased
line. -/
def CtrlRplKw (low : List Char) : Prop :=
  ∃ kw p w q, kw ∈ [tokDio, tokDAO, tokDIS] ∧ low = p ++ tokRPL ++ w ++ kw ++ q ∧
    BdBeforeP p ∧ (∀ c ∈ w, isWS c = true) ∧ BdAfterP q

/-- Declarative form of `icmpv6.*(rpl|155)`: the lower-layer marker
occurs before — never after — the protocol name or its numeric code. -/
def CtrlIcmpOrdered (low : List Char) : Prop :=
  ∃ p m q, low = p ++ tokICMPV6 ++ m ++ tokRPL ++ q ∨ low = p ++ tokICMPV6 ++ m ++ tok155 ++ q

/-- The amended control-message condition of C6 on a raw line. -/
def CtrlAmendedProp (line : List Char) : Prop :=
  CtrlRplKw (line.map lowerChar) ∨ CtrlWholeWord (line.map lowerChar) ∨
    CtrlIcmpOrdered (line.map lowerChar)

/-- The control-message condition as claim C6 states it: the marker and
the protocol name or code co-occur in either order, or a control-frame
name occurs as a whole word. -/
def ctrlClaimEitherOrder (line : List Char) : Bool :=
  (containsSub tokICMPV6 (line.map lowerChar) &&
    (containsSub tokRPL (line.map lowerChar) || containsSub tok155 (line.map lowerChar))) ||
  bdScan ctrlKwAt (line.map lowerChar)

/-! Concrete log lines for the LogTraceParser. -/

/-- An explicit energy report line. -/
def lineTotal5 : List Char := "Total energy: 5".toList

/-- A heuristic energy line (both marker tokens, no explicit report). -/
def lineTxRx : List Char := "radio TX RX duty".toList

/-- An explicit energy line followed by a heuristic line. -/
def energyLines : List (List Char) := [lineTotal5, lineTxRx]

/-- A line holding the protocol name BEFORE the lower-layer marker. -/
def lineRplThenIcmp : List Char := "rpl packet seen before icmpv6 header".toList

/-- Scenario B of the specification: two distinct node-id lines and six
control-message lines. -/
def lineNode1 : List Char := "Node id is set to 1".toList

def lineNode2 : List Char := "Node id is set to 2".toList

def lineDio : List Char := "Sending DIO message".toList

def lineDAO : List Char := "Sending DAO message".toList

def lineDIS : List Char := "Sending DIS probe".toList

def lineRplDio : List Char := "RPL DIO multicast".toList

def lineIcmpRpl : List Char := "icmpv6 payload rpl".toList

def lineIcmp155 : List Char := "icmpv6 type 155".toList

def scenarioB : List (List Char) :=
  [lineNode1, lineNode2, lineDio, lineDAO, lineDIS, lineRplDio, lineIcmpRpl, lineIcmp155]

/-! Concrete capture records used as test inputs. -/

/-- An `icmpv6` record with accepted-reply type 129 at time 0: it is
counted both as sent and as received. -/
def reply0 : PcapRecord := ⟨0, true, true, true, true, 129⟩

/-- The same record half a second later. -/
def replyHalf : PcapRecord := ⟨1/2, true, true, true, true, 129⟩

/-- A record carrying only an `ipv6` layer (sent, not received), at
time 10. -/
def netOnly10 : PcapRecord := ⟨10, true, true, false, true, 0⟩

/-- The same send-only record at time 0. -/
def netOnly0 : PcapRecord := ⟨0, true, true, false, true, 0⟩

/-- A reply record at time 1. -/
def reply1 : PcapRecord := ⟨1, true, true, true, true, 129⟩

/-- Two replies 0.5 seconds apart: the observed span is 0.5 < 1.0. -/
def rsDurHalf : List PcapRecord := [reply0, replyHalf]

/-- A capture whose timestamps decrease: a send at time 10 followed by a
send-and-receive at time 0. -/
def rsBackwards : List PcapRecord := [netOnly10, reply0]

/-- A capture with nondecreasing timestamps: a send at time 0, then a
send-and-receive at time 1. -/
def rsForward : List PcapRecord := [netOnly0, reply1]

end NetAttacksA

namespace NetAttacksA

/-! Characterisation of the capture loop as filters. -/

theorem isReply_imp_isNet (r : PcapRecord) (h : isReply r = true) : isNet r = true := by
  unfold isReply at h
  exact (Bool.and_eq_true_iff.mp ((Bool.and_eq_true_iff.mp
    ((Bool.and_eq_true_iff.mp h).1)).1)).1

theorem pcapStep_eq (st : PcapState) (r : PcapRecord) :
    pcapStep st r =
      ⟨st.sent + (if isNet r then 1 else 0),
       st.received + (if isReply r then 1 else 0),
       st.send_times ++ (if isNet r then [r.timestamp] else []),
       st.recv_times ++ (if isReply r then [r.timestamp] else [])⟩ := by
  obtain ⟨t, tsOk, h6, hi, tyOk, ty⟩ := r
  cases tsOk <;> cases h6 <;> cases hi <;> cases tyOk <;>
    try simp [pcapStep, isNet, isReply]
  all_goals split <;> simp

theorem foldl_pcapStep (rs : List PcapRecord) : ∀ st : PcapState,
    rs.foldl pcapStep st =
      ⟨st.sent + (rs.filter isNet).length,
       st.received + (rs.filter isReply).length,
       st.send_times ++ sendTimesOf rs,
       st.recv_times ++ recvTimesOf rs⟩ := by
  induction rs with
  | nil => intro st; simp [sendTimesOf, recvTimesOf]
  | cons r rest ih =>
    intro st
    rw [List.foldl_cons, pcapStep_eq, ih]
    simp only [sendTimesOf, recvTimesOf, List.filter_cons]
    by_cases hn : isNet r = true
    · by_cases hr : isReply r = true <;>
        simp [hn, hr, List.append_assoc] <;> omega
    · have hr : isReply r = false := by
        cases hrx : isReply r
        · rfl
        · exact absurd (isReply_imp_isNet r hrx) (by simp [hn])
      simp [hn, hr]

theorem runPcap_eq (rs : List PcapRecord) :
    runPcap rs = ⟨(rs.filter isNet).length, (rs.filter isReply).length,
                  sendTimesOf rs, recvTimesOf rs⟩ := by
  unfold runPcap
  rw [foldl_pcapStep]
  simp

theorem filter_isReply_sublist (rs : List PcapRecord) :
    List.Sublist (rs.filter isReply) (rs.filter isNet) := by
  induction rs with
  | nil => simp
  | cons r rest ih =>
    by_cases hr : isReply r = true
    · have hn := isReply_imp_isNet r hr
      simpa [List.filter_cons, hr, hn] using ih.cons₂ r
    · by_cases hn : isNet r = true
      · simp only [List.filter_cons, hn, if_true, hr]
        simpa [hr] using ih.cons r
      · simpa [List.filter_cons, hr, hn] using ih

theorem recvTimesOf_sublist (rs : List PcapRecord) :
    List.Sublist (recvTimesOf rs) (sendTimesOf rs) := by
  unfold recvTimesOf sendTimesOf
  exact (filter_isReply_sublist rs).map (·.timestamp)

theorem received_le_sent (rs : List PcapRecord) :
    (runPcap rs).received ≤ (runPcap rs).sent := by
  rw [runPcap_eq]
  exact (filter_isReply_sublist rs).length_le

end NetAttacksA

namespace NetAttacksA

/-! Order lemmas for `listMax`, `listMin` and sorted prefixes. -/

theorem foldl_min_le (x : ℚ) (xs : List ℚ) : xs.foldl min x ≤ x := by
  induction xs generalizing x with
  | nil => exact le_refl x
  | cons y ys ih => exact le_trans (ih (min x y)) (min_le_left x y)

theorem le_foldl_max (x : ℚ) (xs : List ℚ) : x ≤ xs.foldl max x := by
  induction xs generalizing x with
  | nil => exact le_refl x
  | cons y ys ih => exact le_trans (le_max_left x y) (ih (max x y))

theorem listMin_le_listMax : ∀ l : List ℚ, l ≠ [] → listMin l ≤ listMax l
  | x :: xs, _ => le_trans (foldl_min_le x xs) (le_foldl_max x xs)

theorem sum_take_cons_le (n : ℕ) : ∀ (b : ℚ) (l : List ℚ),
    List.Sorted (· ≤ ·) (b :: l) → n ≤ l.length →
    ((b :: l).take n).sum ≤ (l.take n).sum := by
  induction n with
  | zero => intro b l _ _; simp
  | succ m ih =>
    intro b l hs hn
    match l with
    | [] => simp at hn
    | c :: l2 =>
      rw [List.take_succ_cons, List.take_succ_cons, List.sum_cons, List.sum_cons]
      have hbc : b ≤ c := (List.sorted_cons.mp hs).1 c (by simp)
      have hs2 : List.Sorted (· ≤ ·) (c :: l2) := (List.sorted_cons.mp hs).2
      have hm : m ≤ l2.length := by simpa using hn
      exact add_le_add hbc (ih c l2 hs2 hm)

theorem sum_take_le_of_sublist_sorted {recv send : List ℚ}
    (h : List.Sublist recv send) (hs : List.Sorted (· ≤ ·) send) :
    (send.take recv.length).sum ≤ recv.sum := by
  induction h with
  | slnil => simp
  | cons b h ih =>
    rename_i l1 l2
    have hs2 : List.Sorted (· ≤ ·) l2 := (List.sorted_cons.mp hs).2
    have h1 : ((b :: l2).take l1.length).sum ≤ (l2.take l1.length).sum :=
      sum_take_cons_le l1.length b l2 hs h.length_le
    exact le_trans h1 (ih hs2)
  | cons₂ a h ih =>
    rename_i l1 l2
    have hs2 : List.Sorted (· ≤ ·) l2 := (List.sorted_cons.mp hs).2
    rw [List.length_cons, List.take_succ_cons, List.sum_cons, List.sum_cons]
    exact add_le_add_left (ih hs2) a

theorem sendTimesOf_sublist_map (rs : List PcapRecord) :
    List.Sublist (sendTimesOf rs) (rs.map (·.timestamp)) := by
  unfold sendTimesOf
  exact (List.filter_sublist rs).map (·.timestamp)

/-! Claim theorems about `parse_pcap_metrics`. -/

/-- C2: for every sequence of decoded capture records the counts satisfy
`received ∈ [0, sent]`, the PDR equals `received / sent * 100` when
`sent > 0` and `0` otherwise, and the PDR lies in `[0, 100]`. -/
theorem claim_C2 (rs : List PcapRecord) :
    (runPcap rs).received ≤ (runPcap rs).sent ∧
    pcapPDR rs = (if 0 < (runPcap rs).sent
      then ((runPcap rs).received : ℚ) / ((runPcap rs).sent : ℚ) * 100 else 0) ∧
    0 ≤ pcapPDR rs ∧ pcapPDR rs ≤ 100 := by
  refine ⟨received_le_sent rs, rfl, ?_, ?_⟩
  · unfold pcapPDR
    split
    · positivity
    · exact le_refl 0
  · unfold pcapPDR
    split
    · rename_i hpos
      have hle : ((runPcap rs).received : ℚ) ≤ ((runPcap rs).sent : ℚ) := by
        exact_mod_cast received_le_sent rs
      have hspos : (0 : ℚ) < ((runPcap rs).sent : ℚ) := by exact_mod_cast hpos
      have h1 : ((runPcap rs).received : ℚ) / ((runPcap rs).sent : ℚ) ≤ 1 :=
        (div_le_one hspos).mpr hle
      calc ((runPcap rs).received : ℚ) / ((runPcap rs).sent : ℚ) * 100
          ≤ 1 * 100 := by
            exact mul_le_mul_of_nonneg_right h1 (by norm_num)
        _ = 100 := one_mul 100
    · norm_num

/-- C10: the average end-to-end delay equals
`(sum recv_times - sum (take (len recv_times) send_times)) / len recv_times * 1000`
when `recv_times` is nonempty, and `0` otherwise. -/
theorem claim_C10 (rs : List PcapRecord) :
    pcapAe2ed rs = if recvTimesOf rs = [] then 0
      else ((recvTimesOf rs).sum - ((sendTimesOf rs).take (recvTimesOf rs).length).sum)
        / ((recvTimesOf rs).length : ℚ) * 1000 := by
  unfold pcapAe2ed
  rw [runPcap_eq]

/-- C1 counterexample: two receive records 0.5 seconds apart give an
observation duration of 0.5, which is not floored at 1.0, and a
throughput of 2 / 0.5 = 4 — a division by a value below 1.0. -/
theorem claim_C1_counterexample :
    pcapDuration rsDurHalf = 1/2 ∧ ¬ (1 ≤ pcapDuration rsDurHalf) ∧
      pcapThroughput rsDurHalf = 4 := by
  have hs : runPcap rsDurHalf = ⟨2, 2, [0, 1/2], [0, 1/2]⟩ := by
    rw [runPcap_eq]
    norm_num [rsDurHalf, reply0, replyHalf, sendTimesOf, recvTimesOf,
      isNet, isReply, List.filter_cons]
  have hdur : pcapDuration rsDurHalf = 1/2 := by
    unfold pcapDuration
    rw [hs]
    norm_num [listMax, listMin, max_def, min_def, List.cons_ne_nil, ne_eq]
  refine ⟨hdur, by rw [hdur]; norm_num, ?_⟩
  unfold pcapThroughput
  rw [hdur, hs]
  norm_num

/-- C1 amended: the duration equals `max - min` of all collected
timestamps when both send and receive timestamps exist and `1.0`
otherwise — with no floor at 1.0; it is always nonnegative, and the
throughput division is guarded by `duration > 0`, so division by zero
(though not division by values in `(0, 1)`) is impossible. -/
theorem claim_C1_amended (rs : List PcapRecord) :
    0 ≤ pcapDuration rs ∧
    pcapDuration rs = (if recvTimesOf rs ≠ [] ∧ sendTimesOf rs ≠ []
      then listMax (recvTimesOf rs ++ sendTimesOf rs)
        - listMin (recvTimesOf rs ++ sendTimesOf rs)
      else 1) ∧
    pcapThroughput rs = (if pcapDuration rs = 0 then 0
      else ((runPcap rs).received : ℚ) / pcapDuration rs) := by
  have hdur : 0 ≤ pcapDuration rs := by
    unfold pcapDuration
    split
    · rename_i h
      have hne : (runPcap rs).recv_times ++ (runPcap rs).send_times ≠ [] := by
        simp [h.1]
      have := listMin_le_listMax _ hne
      linarith
    · norm_num
  refine ⟨hdur, ?_, ?_⟩
  · unfold pcapDuration
    rw [runPcap_eq]
  · unfold pcapThroughput
    rcases eq_or_lt_of_le hdur with h0 | hpos
    · rw [if_neg (by rw [← h0]; exact lt_irrefl 0), if_pos h0.symm]
    · rw [if_pos hpos, if_neg (ne_of_gt hpos)]

end NetAttacksA

namespace NetAttacksA

/-! Characterisation of the EventCorrelator loop step. -/

theorem corrStep_char (st : CorrState) (line : List Char) :
    corrStep st line =
      { sent := st.sent + (if isSentLine line then 1 else 0),
        received := st.received + (if isRecvLine line then 1 else 0),
        delays := st.delays ++ newDelays st.sendTs line,
        energy := st.energy + newEnergy line,
        etx := st.etx ++ newEtx line,
        firstTime :=
          match tsOf line with
          | some t => some (st.firstTime.getD t)
          | none => st.firstTime,
        lastTime :=
          match tsOf line with
          | some t => some t
          | none => st.lastTime,
        sendTs := st.sendTs ++ newSendTs line } := by
  unfold corrStep newDelays newEnergy newEtx newSendTs
  cases htx : tsOf line <;>
    by_cases h1 : isSentLine line <;>
    by_cases h2 : isRecvLine line <;>
    by_cases h3 : hasPMarker line <;>
    by_cases h4 : 5 < (digitRuns line).length <;>
      simp [htx, h1, h2, h3, h4] <;>
      (repeat' split) <;>
      simp_all [List.getLast?_concat]

end NetAttacksA

namespace NetAttacksA

theorem corr_received (lines : List (List Char)) : ∀ st : CorrState,
    (lines.foldl corrStep st).received
      = st.received + lines.countP (fun l => isRecvLine l) := by
  induction lines with
  | nil => intro st; simp
  | cons l rest ih =>
    intro st
    rw [List.foldl_cons, ih, corrStep_char]
    simp [List.countP_cons]
    by_cases h : isRecvLine l <;> simp [h] <;> omega

theorem corr_lastSend_delays (lines : List (List Char)) : ∀ st : CorrState,
    ((lines.foldl corrStep st).sendTs.getLast?, (lines.foldl corrStep st).delays)
      = lines.foldl lastSendDelaysStep (st.sendTs.getLast?, st.delays) := by
  induction lines with
  | nil => intro st; rfl
  | cons l rest ih =>
    intro st
    rw [List.foldl_cons, List.foldl_cons, ih]
    have hstep : ((corrStep st l).sendTs.getLast?, (corrStep st l).delays)
        = lastSendDelaysStep (st.sendTs.getLast?, st.delays) l := by
      rw [corrStep_char]
      unfold lastSendDelaysStep newDelays newSendTs
      cases htx : tsOf l <;>
        by_cases h1 : isSentLine l <;>
        by_cases h2 : isRecvLine l <;>
          simp [htx, h1, h2] <;>
          (repeat' split) <;>
          simp_all [List.getLast?_concat]
    rw [hstep]

/-- C4 counterexample: on one send (at 1000 ms) followed by two receives
(at 2000 ms and 3000 ms), the code records two delay samples `[1000,
2000]` against the single send, whereas the claimed LIFO-with-consumption
pairing would record only `[1000]` and leave the second receive without
a delay sample. -/
theorem claim_C4_counterexample :
    (corrRun omerwLines).delays = [1000, 2000] ∧
    (corrRun omerwLines).sent = 1 ∧
    delaysClaimLIFO omerwLines = [1000] ∧
    (corrRun omerwLines).delays ≠ delaysClaimLIFO omerwLines := by
  refine ⟨by decide, by decide, by decide, by decide⟩

/-- C4 amended: on each receive event carrying a timestamp, the recorded
delay equals the receive timestamp minus the timestamp of the most
recently recorded send; that send is NOT consumed and may be matched by
arbitrarily many later receives; a receive with no recorded send (or
without a timestamp) increments `received` but contributes no delay
sample.  `received` counts exactly the receive-marked lines. -/
theorem claim_C4_amended (lines : List (List Char)) :
    (corrRun lines).delays = delaysSpecNoConsume lines ∧
    (corrRun lines).received = lines.countP (fun l => isRecvLine l) := by
  constructor
  · have h := corr_lastSend_delays lines corrInit
    unfold corrRun delaysSpecNoConsume
    have : (corrInit.sendTs.getLast?, corrInit.delays) = ((none : Option ℕ), ([] : List ℤ)) := rfl
    rw [this] at h
    exact congrArg Prod.snd h
  · have h := corr_received lines corrInit
    unfold corrRun
    simpa [corrInit] using h

end NetAttacksA

namespace NetAttacksA

/-! Nonnegativity of the delay metrics under monotone timestamps. -/

theorem round2_nonneg (x : ℚ) (h : 0 ≤ x) : 0 ≤ round2 x := by
  unfold round2
  have h1 : (0 : ℤ) ≤ round (x * 100) := by
    rw [round_eq]
    refine Int.le_floor.mpr ?_
    push_cast
    linarith
  positivity

theorem newSendTs_ts_none {l : List Char} (h : tsOf l = none) : newSendTs l = [] := by
  unfold newSendTs
  rw [h]

theorem newDelays_ts_none {l : List Char} (s : List ℕ) (h : tsOf l = none) :
    newDelays s l = [] := by
  unfold newDelays
  rw [h]
  rcases hr : isRecvLine l <;> simp [hr]

theorem newSendTs_ts_some {l : List Char} {t : ℕ} (h : tsOf l = some t)
    {u : ℕ} (hu : u ∈ newSendTs l) : u = t := by
  unfold newSendTs at hu
  rw [h] at hu
  rcases hsl : isSentLine l <;> rw [hsl] at hu <;> simp at hu
  exact hu

theorem corr_delays_nonneg (lines : List (List Char)) : ∀ st : CorrState,
    List.Sorted (· ≤ ·) (lines.filterMap tsOf) →
    (∀ s ∈ st.sendTs, ∀ t ∈ lines.filterMap tsOf, s ≤ t) →
    (∀ d ∈ st.delays, 0 ≤ d) →
    ∀ d ∈ (lines.foldl corrStep st).delays, 0 ≤ d := by
  induction lines with
  | nil => intro st _ _ hd; simpa using hd
  | cons l rest ih =>
    intro st hsort hsend hdel
    rw [List.foldl_cons]
    cases htx : tsOf l with
    | none =>
      have hfm : (l :: rest).filterMap tsOf = rest.filterMap tsOf := by
        simp [List.filterMap_cons, htx]
      rw [hfm] at hsort hsend
      refine ih (corrStep st l) hsort ?_ ?_
      · rw [corrStep_char]
        simpa [newSendTs_ts_none htx] using hsend
      · rw [corrStep_char]
        simpa [newDelays_ts_none st.sendTs htx] using hdel
    | some t =>
      have hfm : (l :: rest).filterMap tsOf = t :: rest.filterMap tsOf := by
        simp [List.filterMap_cons, htx]
      rw [hfm] at hsort hsend
      have hrest : List.Sorted (· ≤ ·) (rest.filterMap tsOf) :=
        (List.sorted_cons.mp hsort).2
      have htle : ∀ u ∈ rest.filterMap tsOf, t ≤ u :=
        (List.sorted_cons.mp hsort).1
      refine ih (corrStep st l) hrest ?_ ?_
      · rw [corrStep_char]
        intro s hs u hu
        simp only at hs
        rcases List.mem_append.mp hs with hold | hnew
        · exact hsend s hold u (by simp [hu])
        · exact (newSendTs_ts_some htx hnew) ▸ htle u hu
      · rw [corrStep_char]
        intro d hd
        simp only at hd
        rcases List.mem_append.mp hd with hold | hnew
        · exact hdel d hold
        · unfold newDelays at hnew
          rcases hrl : isRecvLine l <;> rw [hrl] at hnew
          · simp at hnew
          · rw [htx] at hnew
            rcases hgl : (st.sendTs ++ newSendTs l).getLast? with _ | s <;>
              rw [hgl] at hnew
            · simp at hnew
            · have hd_eq : d = (t : ℤ) - (s : ℤ) := by simpa using hnew
              have hs_mem : s ∈ st.sendTs ++ newSendTs l :=
                List.mem_of_getLast?_eq_some hgl
              have hst : s ≤ t := by
                rcases List.mem_append.mp hs_mem with hsm | hsm
                · exact hsend s hsm t (by simp)
                · exact le_of_eq (newSendTs_ts_some htx hsm)
              rw [hd_eq]
              simp only [sub_nonneg]
              exact_mod_cast hst

theorem pcapAe2ed_nonneg (rs : List PcapRecord)
    (h : List.Sorted (· ≤ ·) (rs.map (·.timestamp))) : 0 ≤ pcapAe2ed rs := by
  unfold pcapAe2ed
  rw [runPcap_eq]
  dsimp only
  split
  · exact le_refl 0
  · rename_i hne
    have hsend : List.Sorted (· ≤ ·) (sendTimesOf rs) :=
      List.Pairwise.sublist (sendTimesOf_sublist_map rs) h
    have hsub := recvTimesOf_sublist rs
    have hsum := sum_take_le_of_sublist_sorted hsub hsend
    have hlen : (0 : ℚ) < ((recvTimesOf rs).length : ℚ) := by
      have h1 : 0 < (recvTimesOf rs).length := List.length_pos.mpr hne
      exact_mod_cast h1
    have hnum : 0 ≤ (recvTimesOf rs).sum
        - ((sendTimesOf rs).take (recvTimesOf rs).length).sum := by linarith
    exact mul_nonneg (div_nonneg hnum (le_of_lt hlen)) (by norm_num)

theorem corrAvgDelay_nonneg (lines : List (List Char))
    (h : List.Sorted (· ≤ ·) (lines.filterMap tsOf)) : 0 ≤ corrAvgDelay lines := by
  unfold corrAvgDelay
  split
  · exact le_refl 0
  · rename_i hne
    have hall : ∀ d ∈ (corrRun lines).delays, (0 : ℤ) ≤ d := by
      refine corr_delays_nonneg lines corrInit h ?_ ?_
      · intro s hs
        simp [corrInit] at hs
      · intro d hd
        simp [corrInit] at hd
    have hsum : (0 : ℤ) ≤ (corrRun lines).delays.sum := List.sum_nonneg hall
    have hsumq : (0 : ℚ) ≤ ((corrRun lines).delays.sum : ℚ) := by exact_mod_cast hsum
    have hlen : (0 : ℚ) ≤ (((corrRun lines).delays.length : ℕ) : ℚ) := by positivity
    exact div_nonneg hsumq hlen

/-- C3 counterexample: a capture whose timestamps decrease (send at 10 s
followed by a send-and-receive at 0 s) yields an average end-to-end
delay of −10000 ms, refuting the claim that the delay field is
nonnegative for every input sequence. -/
theorem claim_C3_counterexample :
    pcapAe2ed rsBackwards = -10000 ∧ ¬ (0 ≤ pcapAe2ed rsBackwards) := by
  have h1 : isReply netOnly10 = false := rfl
  have h2 : isReply reply0 = true := rfl
  have h3 : isNet netOnly10 = true := rfl
  have h4 : isNet reply0 = true := rfl
  have ht1 : netOnly10.timestamp = 10 := rfl
  have ht2 : reply0.timestamp = 0 := rfl
  have h : pcapAe2ed rsBackwards = -10000 := by
    unfold pcapAe2ed
    rw [runPcap_eq]
    norm_num [rsBackwards, recvTimesOf, sendTimesOf, List.filter_cons,
      h1, h2, h3, h4, ht1, ht2]
  exact ⟨h, by rw [h]; norm_num⟩

/-- C3 amended: when the input timestamps are nondecreasing in file
order — as they are for a chronologically written capture or log — the
average end-to-end delay field is nonnegative, both for
`parse_pcap_metrics` and for the `parse_log` variant of omerw.py. -/
theorem claim_C3_amended (rs : List PcapRecord) (lines : List (List Char)) :
    (List.Sorted (· ≤ ·) (rs.map (·.timestamp)) → 0 ≤ pcapAe2ed rs) ∧
    (List.Sorted (· ≤ ·) (lines.filterMap tsOf) →
      0 ≤ (parse_log lines).averageEndToEndDelay) := by
  constructor
  · exact pcapAe2ed_nonneg rs
  · intro h
    have h1 : (parse_log lines).averageEndToEndDelay = round2 (corrAvgDelay lines) := rfl
    rw [h1]
    exact round2_nonneg _ (corrAvgDelay_nonneg lines h)

/-- Witness for the amended C3 at concrete sorted inputs. -/
theorem claim_C3_witness :
    List.Sorted (· ≤ ·) (rsForward.map (·.timestamp)) ∧
    List.Sorted (· ≤ ·) (omerwLines.filterMap tsOf) ∧
    0 ≤ pcapAe2ed rsForward ∧
    0 ≤ (parse_log omerwLines).averageEndToEndDelay := by
  have hs1 : List.Sorted (· ≤ ·) (rsForward.map (·.timestamp)) := by
    norm_num [rsForward, netOnly0, reply1, List.sorted_cons]
  have hs2 : List.Sorted (· ≤ ·) (omerwLines.filterMap tsOf) := by decide
  exact ⟨hs1, hs2, (claim_C3_amended rsForward omerwLines).1 hs1,
    (claim_C3_amended rsForward omerwLines).2 hs2⟩

end NetAttacksA

namespace NetAttacksA

/-! Energy accumulator of the LogTraceParser. -/

theorem logStep_energy (st : LogState) (l : List Char) :
    (logStep st l).energy_score =
      match energySearch l with
      | some v => v
      | none =>
        if containsSub ("TX".toList) l && containsSub ("RX".toList) l then
          st.energy_score + 1
        else st.energy_score := by
  unfold logStep
  rcases he : energySearch l with _ | v <;>
    rcases hn : containsSub ("Node id is set to".toList) l <;>
      rcases hd : nodeIdSearch l with _ | d <;>
        rcases hx : etxSearch l with _ | x <;>
          rcases hc : RPL_CTRL_PATTERN l <;>
            simp [he, hn, hd, hx, hc] <;>
            split <;> simp

theorem logRun_energy_foldl (lines : List (List Char)) : ∀ st : LogState,
    (lines.foldl logStep st).energy_score = energyFold st.energy_score lines := by
  induction lines with
  | nil => intro st; rfl
  | cons l ls ih =>
    intro st
    rw [List.foldl_cons, ih, show energyFold st.energy_score (l :: ls)
      = energyFold (match energySearch l with
          | some v => v
          | none =>
            if containsSub ("TX".toList) l && containsSub ("RX".toList) l then
              st.energy_score + 1
            else st.energy_score) ls from rfl, ← logStep_energy]

theorem lastTotal?_eq_none_iff (ls : List (List Char)) :
    lastTotal? ls = none ↔ ls.any isTotalLine = false := by
  induction ls with
  | nil => simp [lastTotal?]
  | cons l t ih =>
    rcases h : lastTotal? t with _ | v
    · have hany : t.any isTotalLine = false := ih.mp h
      rcases he : energySearch l with _ | w <;>
        simp [lastTotal?, h, he, hany, isTotalLine]
    · have hany : t.any isTotalLine = true := by
        rcases ha : t.any isTotalLine
        · rw [ih.mpr ha] at h; exact absurd h (by simp)
        · rfl
      simp [lastTotal?, h, hany, isTotalLine]

theorem energyFold_char (lines : List (List Char)) : ∀ acc : ℚ,
    energyFold acc lines =
      (if lines.any isTotalLine then (lastTotal? lines).getD 0 else acc)
        + (countHeurAfter lines : ℚ) := by
  induction lines with
  | nil => intro acc; simp [energyFold, countHeurAfter]
  | cons l ls ih =>
    intro acc
    rw [show energyFold acc (l :: ls)
      = energyFold (match energySearch l with
          | some v => v
          | none =>
            if containsSub ("TX".toList) l && containsSub ("RX".toList) l then acc + 1
            else acc) ls from rfl, ih]
    rcases hany : ls.any isTotalLine
    · have hnone : lastTotal? ls = none := (lastTotal?_eq_none_iff ls).mpr hany
      rcases he : energySearch l with _ | v
      · have hTot : isTotalLine l = false := by simp [isTotalLine, he]
        rcases htx1 : containsSub (['T', 'X']) l <;>
          rcases htx2 : containsSub (['R', 'X']) l <;>
          simp [List.any_cons, hTot, hany, countHeurAfter, heurLine, he,
            htx1, htx2, lastTotal?, hnone] <;>
          push_cast <;>
          ring
      · have hTot : isTotalLine l = true := by simp [isTotalLine, he]
        simp [List.any_cons, hTot, hany, countHeurAfter, heurLine, he,
          lastTotal?, hnone]
    · have hsome : lastTotal? ls ≠ none := by
        intro hc
        rw [(lastTotal?_eq_none_iff ls).mp hc] at hany
        exact absurd hany (by simp)
      rcases hl : lastTotal? ls with _ | v
      · exact absurd hl hsome
      · simp [List.any_cons, hany, countHeurAfter, heurLine, lastTotal?, hl,
          Bool.and_eq_false_iff]

theorem logRun_energy_char (lines : List (List Char)) :
    (logRun lines).energy_score
      = (lastTotal? lines).getD 0 + (countHeurAfter lines : ℚ) := by
  unfold logRun
  rw [logRun_energy_foldl lines ⟨0, [], 0, []⟩, energyFold_char]
  rcases hany : lines.any isTotalLine
  · rw [(lastTotal?_eq_none_iff lines).mpr hany]
    simp
  · simp

end NetAttacksA

namespace NetAttacksA

/-! Claim theorems C5, C7, C8, C9. -/

/-- C5 counterexample: on a log whose explicit `Total energy: 5` line is
followed by a heuristic `TX`/`RX` line, the final energy score is 6, not
the value 5 of the last explicit line — the heuristic also contributes
after the last explicit line. -/
theorem claim_C5_counterexample :
    lastTotal? energyLines = some 5 ∧
    (logRun energyLines).energy_score = 6 ∧
    (logRun energyLines).energy_score ≠ 5 := by
  have h5 : lastTotal? energyLines = some 5 := by
    rw [show lastTotal? energyLines = some ((5 : ℕ) : ℚ) from rfl]
    norm_num
  have hcnt : countHeurAfter energyLines = 1 := by decide
  have h6 : (logRun energyLines).energy_score = 6 := by
    rw [logRun_energy_char, h5, hcnt]
    norm_num
  exact ⟨h5, h6, by rw [h6]; norm_num⟩

/-- C5 amended: the final energy score equals the value of the last
explicit `Total energy` line (0 when there is none) plus one for every
heuristic line (`TX` and `RX` both present, no explicit match on the
line itself) that has no later explicit `Total energy` line; the
heuristic therefore contributes even when an explicit line is present,
for the lines after the last explicit one. -/
theorem claim_C5_amended (lines : List (List Char)) :
    (logRun lines).energy_score
      = (lastTotal? lines).getD 0 + (countHeurAfter lines : ℚ) :=
  logRun_energy_char lines

/-- C7: an unreadable log file yields exactly the fallback record
`{Overhead Packets: 0, Energy Consumption: 0, Average ETX: 1}`; the
embedding is total, so no exception escapes. -/
theorem claim_C7 (e : String) :
    parse_log_metrics (Except.error e) = ⟨0, 0, 1⟩ := rfl

/-- C8: the overhead metric equals `ctrl_count / max 1 (number of
distinct node ids)` for every log, and scenario B (two distinct
`Node id is set to` lines, six control-message lines) yields a
distinct-node count of 2, a control count of 6, and overhead 3. -/
theorem claim_C8 :
    (∀ lines : List (List Char), (logMetricsOf lines).overheadPackets
      = ((logRun lines).ctrl_count : ℚ)
        / ((max 1 (logRun lines).node_ids.length : ℕ) : ℚ)) ∧
    (logRun scenarioB).node_ids.length = 2 ∧
    (logRun scenarioB).ctrl_count = 6 ∧
    (logMetricsOf scenarioB).overheadPackets = 3 := by
  have h1 : (logRun scenarioB).ctrl_count = 6 := by decide
  have h2 : (logRun scenarioB).node_ids.length = 2 := by decide
  refine ⟨fun lines => rfl, h2, h1, ?_⟩
  show ((logRun scenarioB).ctrl_count : ℚ)
    / ((max 1 (logRun scenarioB).node_ids.length : ℕ) : ℚ) = 3
  rw [h1, h2]
  norm_num

/-- C9 counterexample: the `parse_log` variant of omerw.py returns an
average ETX of 0 — not 1.0 — on a log with no ETX samples (here the
empty log), refuting the claim for the EventCorrelator variant. -/
theorem claim_C9_counterexample :
    (corrRun ([] : List (List Char))).etx = [] ∧
    (parse_log ([] : List (List Char))).averageEtx = 0 ∧
    (parse_log ([] : List (List Char))).averageEtx ≠ 1 := by
  have h0 : (parse_log ([] : List (List Char))).averageEtx = round2 0 := rfl
  have h1 : (parse_log ([] : List (List Char))).averageEtx = 0 := by
    rw [h0]
    simp [round2]
  exact ⟨rfl, h1, by rw [h1]; norm_num⟩

/-- C9 amended: with no link-quality samples, `parse_log_metrics`
(main.py) returns an average ETX of exactly 1.0, while the `parse_log`
variant of omerw.py returns 0. -/
theorem claim_C9_amended :
    (∀ lines : List (List Char),
      (logRun lines).etx_values = [] → (logMetricsOf lines).averageETX = 1) ∧
    (∀ lines : List (List Char),
      (corrRun lines).etx = [] → (parse_log lines).averageEtx = 0) := by
  constructor
  · intro lines h
    show (if (logRun lines).etx_values = [] then (1 : ℚ)
      else (logRun lines).etx_values.sum
        / (((logRun lines).etx_values.length : ℕ) : ℚ)) = 1
    rw [if_pos h]
  · intro lines h
    show round2 (if (corrRun lines).etx = [] then 0
      else (corrRun lines).etx.sum / (((corrRun lines).etx.length : ℕ) : ℚ)) = 0
    rw [if_pos h]
    simp [round2]

/-- Witness for the amended C9 at concrete sample-free logs. -/
theorem claim_C9_witness :
    (logRun [lineNode1]).etx_values = [] ∧
    (logMetricsOf [lineNode1]).averageETX = 1 ∧
    (corrRun [lineSent1]).etx = [] ∧
    (parse_log [lineSent1]).averageEtx = 0 :=
  ⟨rfl, claim_C9_amended.1 [lineNode1] rfl, rfl, claim_C9_amended.2 [lineSent1] rfl⟩

end NetAttacksA

namespace NetAttacksA

/-! Declarative characterisation of `RPL_CTRL_PATTERN` (claim C6). -/

theorem tails_any_iff {α : Type} (f : List α → Bool) (l : List α) :
    l.tails.any f = true ↔ ∃ p t, l = p ++ t ∧ f t = true := by
  rw [List.any_eq_true]
  constructor
  · rintro ⟨t, ht, hf⟩
    rcases (List.mem_tails t l).mp ht with ⟨p, hp⟩
    exact ⟨p, t, hp.symm, hf⟩
  · rintro ⟨p, t, rfl, hf⟩
    exact ⟨t, (List.mem_tails t (p ++ t)).mpr ⟨p, rfl⟩, hf⟩

theorem isPrefixOf_iff_append : ∀ n l : List Char, n.isPrefixOf l = true ↔ ∃ q, l = n ++ q
  | [], l => by simp [List.isPrefixOf]
  | a :: n, [] => by simp [List.isPrefixOf]
  | a :: n, b :: l => by
    simp only [List.isPrefixOf, Bool.and_eq_true_iff, beq_iff_eq]
    constructor
    · rintro ⟨rfl, h⟩
      rcases (isPrefixOf_iff_append n l).mp h with ⟨q, rfl⟩
      exact ⟨q, rfl⟩
    · rintro ⟨q, hq⟩
      injection hq with h1 h2
      subst h1
      exact ⟨rfl, (isPrefixOf_iff_append n l).mpr ⟨q, h2⟩⟩

theorem containsSub_iff (n h : List Char) :
    containsSub n h = true ↔ ∃ p q, h = p ++ n ++ q := by
  unfold containsSub
  rw [tails_any_iff]
  constructor
  · rintro ⟨p, t, rfl, hf⟩
    rcases (isPrefixOf_iff_append n t).mp hf with ⟨q, rfl⟩
    exact ⟨p, q, by simp [List.append_assoc]⟩
  · rintro ⟨p, q, rfl⟩
    exact ⟨p, n ++ q, by simp [List.append_assoc],
      (isPrefixOf_iff_append n (n ++ q)).mpr ⟨q, rfl⟩⟩

theorem bdAfter_iff (q : List Char) : bdAfter q = true ↔ BdAfterP q := by
  unfold bdAfter BdAfterP
  rcases q with _ | ⟨c, q⟩
  · simp
  · simp [List.head?]

theorem kw_prefix_case (kw l : List Char) (hlen : kw.length = 3) :
    (kw.isPrefixOf l && bdAfter (l.drop 3)) = true ↔ ∃ q, l = kw ++ q ∧ BdAfterP q := by
  rw [Bool.and_eq_true_iff]
  constructor
  · rintro ⟨hpre, hbd⟩
    rcases (isPrefixOf_iff_append kw l).mp hpre with ⟨q, rfl⟩
    rw [List.drop_left' hlen] at hbd
    exact ⟨q, rfl, (bdAfter_iff q).mp hbd⟩
  · rintro ⟨q, rfl, hq⟩
    refine ⟨(isPrefixOf_iff_append kw (kw ++ q)).mpr ⟨q, rfl⟩, ?_⟩
    rw [List.drop_left' hlen]
    exact (bdAfter_iff q).mpr hq

theorem ctrlKwAt_iff (l : List Char) :
    ctrlKwAt l = true ↔
      ∃ kw q, kw ∈ [tokDio, tokDAO, tokDIS] ∧ l = kw ++ q ∧ BdAfterP q := by
  unfold ctrlKwAt
  constructor
  · intro h
    rcases Bool.and_eq_true_iff.mp h with ⟨hpre, hbd⟩
    rcases Bool.or_eq_true_iff.mp hpre with h12 | h3
    · rcases Bool.or_eq_true_iff.mp h12 with h1 | h2
      · rcases (kw_prefix_case tokDio l rfl).mp
          (Bool.and_eq_true_iff.mpr ⟨h1, hbd⟩) with ⟨q, hq, hb⟩
        exact ⟨tokDio, q, by simp, hq, hb⟩
      · rcases (kw_prefix_case tokDAO l rfl).mp
          (Bool.and_eq_true_iff.mpr ⟨h2, hbd⟩) with ⟨q, hq, hb⟩
        exact ⟨tokDAO, q, by simp, hq, hb⟩
    · rcases (kw_prefix_case tokDIS l rfl).mp
        (Bool.and_eq_true_iff.mpr ⟨h3, hbd⟩) with ⟨q, hq, hb⟩
      exact ⟨tokDIS, q, by simp, hq, hb⟩
  · rintro ⟨kw, q, hmem, rfl, hq⟩
    simp only [List.mem_cons, List.not_mem_nil, or_false] at hmem
    rcases hmem with rfl | rfl | rfl
    · rcases Bool.and_eq_true_iff.mp
        ((kw_prefix_case tokDio (tokDio ++ q) rfl).mpr ⟨q, rfl, hq⟩) with ⟨hpre, hbd⟩
      exact Bool.and_eq_true_iff.mpr
        ⟨Bool.or_eq_true_iff.mpr (Or.inl (Bool.or_eq_true_iff.mpr (Or.inl hpre))), hbd⟩
    · rcases Bool.and_eq_true_iff.mp
        ((kw_prefix_case tokDAO (tokDAO ++ q) rfl).mpr ⟨q, rfl, hq⟩) with ⟨hpre, hbd⟩
      exact Bool.and_eq_true_iff.mpr
        ⟨Bool.or_eq_true_iff.mpr (Or.inl (Bool.or_eq_true_iff.mpr (Or.inr hpre))), hbd⟩
    · rcases Bool.and_eq_true_iff.mp
        ((kw_prefix_case tokDIS (tokDIS ++ q) rfl).mpr ⟨q, rfl, hq⟩) with ⟨hpre, hbd⟩
      exact Bool.and_eq_true_iff.mpr
        ⟨Bool.or_eq_true_iff.mpr (Or.inr hpre), hbd⟩

end NetAttacksA

namespace NetAttacksA

theorem bdScan_iff (p : List Char → Bool) (P : List Char → Prop)
    (hp : ∀ l, p l = true ↔ P l) (l : List Char) :
    bdScan p l = true ↔ ∃ pre rest, l = pre ++ rest ∧ BdBeforeP pre ∧ P rest := by
  unfold bdScan
  rw [Bool.or_eq_true_iff, tails_any_iff]
  constructor
  · rintro (h0 | ⟨pr, t, rfl, hf⟩)
    · refine ⟨[], l, rfl, ?_, (hp l).mp h0⟩
      intro c hc
      simp at hc
    · rcases t with _ | ⟨c, rest⟩
      · exact absurd hf (by simp)
      · rcases Bool.and_eq_true_iff.mp hf with ⟨hw, hrest⟩
        refine ⟨pr ++ [c], rest, by simp [List.append_assoc], ?_, (hp rest).mp hrest⟩
        intro c' hc'
        rw [List.getLast?_concat] at hc'
        injection hc' with hcc
        subst hcc
        simpa using hw
  · rintro ⟨pre, rest, rfl, hb, hP⟩
    rcases List.eq_nil_or_concat' pre with rfl | ⟨p0, c, rfl⟩
    · exact Or.inl ((hp rest).mpr hP)
    · refine Or.inr ⟨p0, c :: rest, by simp [List.append_assoc], ?_⟩
      have hc : isWordC c = false := hb c (List.getLast?_concat p0)
      simp [hc, (hp rest).mpr hP]

theorem dropWhile_ws_append {w : List Char} (hw : ∀ c ∈ w, isWS c = true)
    {c0 : Char} (hc : isWS c0 = false) (rest : List Char) :
    (w ++ c0 :: rest).dropWhile isWS = c0 :: rest := by
  induction w with
  | nil => simp [List.dropWhile_cons, hc]
  | cons a w ih =>
    have ha : isWS a = true := hw a (by simp)
    rw [List.cons_append, List.dropWhile_cons, if_pos ha]
    exact ih fun c hcm => hw c (by simp [hcm])

theorem rplKwAt_iff (l : List Char) :
    rplKwAt l = true ↔ ∃ kw w q, kw ∈ [tokDio, tokDAO, tokDIS] ∧
      l = tokRPL ++ (w ++ (kw ++ q)) ∧ (∀ c ∈ w, isWS c = true) ∧ BdAfterP q := by
  unfold rplKwAt
  constructor
  · intro h
    rcases Bool.and_eq_true_iff.mp h with ⟨hpre, hkw⟩
    rcases (isPrefixOf_iff_append tokRPL l).mp hpre with ⟨r, rfl⟩
    rw [List.drop_left' (show tokRPL.length = 3 from rfl)] at hkw
    rcases (ctrlKwAt_iff (r.dropWhile isWS)).mp hkw with ⟨kw, q, hmem, heq, hbd⟩
    refine ⟨kw, r.takeWhile isWS, q, hmem, ?_, ?_, hbd⟩
    · rw [show r.takeWhile isWS ++ (kw ++ q) = r.takeWhile isWS ++ (kw ++ q) from rfl,
        ← heq, List.takeWhile_append_dropWhile]
    · intro c hc
      exact List.mem_takeWhile_imp hc
  · rintro ⟨kw, w, q, hmem, rfl, hw, hq⟩
    have hdrop : ((tokRPL ++ (w ++ (kw ++ q))).drop 3) = w ++ (kw ++ q) :=
      List.drop_left' (show tokRPL.length = 3 from rfl)
    have hd : ∃ kt : List Char, kw = 'd' :: kt := by
      simp only [List.mem_cons, List.not_mem_nil, or_false] at hmem
      rcases hmem with rfl | rfl | rfl
      · exact ⟨['i', 'o'], rfl⟩
      · exact ⟨['a', 'o'], rfl⟩
      · exact ⟨['i', 's'], rfl⟩
    rcases hd with ⟨kt, hkd⟩
    have hdws : isWS 'd' = false := rfl
    have hdw : (w ++ (kw ++ q)).dropWhile isWS = kw ++ q := by
      rw [hkd, List.cons_append, dropWhile_ws_append hw hdws (kt ++ q), ← List.cons_append, ← hkd]
    refine Bool.and_eq_true_iff.mpr ⟨?_, ?_⟩
    · exact (isPrefixOf_iff_append tokRPL _).mpr ⟨w ++ (kw ++ q), rfl⟩
    · rw [hdrop, hdw]
      exact (ctrlKwAt_iff (kw ++ q)).mpr ⟨kw, q, hmem, rfl, hq⟩

theorem icmp_any_iff (l : List Char) :
    l.tails.any icmpAt = true ↔
      ∃ p m q, l = p ++ (tokICMPV6 ++ (m ++ (tokRPL ++ q)))
        ∨ l = p ++ (tokICMPV6 ++ (m ++ (tok155 ++ q))) := by
  rw [tails_any_iff]
  constructor
  · rintro ⟨p, t, rfl, hf⟩
    rcases Bool.and_eq_true_iff.mp hf with ⟨hpre, hsub⟩
    rcases (isPrefixOf_iff_append tokICMPV6 t).mp hpre with ⟨r, rfl⟩
    rw [List.drop_left' (show tokICMPV6.length = 6 from rfl)] at hsub
    rcases Bool.or_eq_true_iff.mp hsub with h | h
    · rcases (containsSub_iff tokRPL r).mp h with ⟨m, q, rfl⟩
      exact ⟨p, m, q, Or.inl (by simp [List.append_assoc])⟩
    · rcases (containsSub_iff tok155 r).mp h with ⟨m, q, rfl⟩
      exact ⟨p, m, q, Or.inr (by simp [List.append_assoc])⟩
  · rintro ⟨p, m, q, h | h⟩ <;> subst h
    · refine ⟨p, tokICMPV6 ++ (m ++ (tokRPL ++ q)), rfl, ?_⟩
      refine Bool.and_eq_true_iff.mpr
        ⟨(isPrefixOf_iff_append tokICMPV6 _).mpr ⟨m ++ (tokRPL ++ q), rfl⟩, ?_⟩
      rw [List.drop_left' (show tokICMPV6.length = 6 from rfl)]
      exact Bool.or_eq_true_iff.mpr
        (Or.inl ((containsSub_iff tokRPL _).mpr ⟨m, q, by simp [List.append_assoc]⟩))
    · refine ⟨p, tokICMPV6 ++ (m ++ (tok155 ++ q)), rfl, ?_⟩
      refine Bool.and_eq_true_iff.mpr
        ⟨(isPrefixOf_iff_append tokICMPV6 _).mpr ⟨m ++ (tok155 ++ q), rfl⟩, ?_⟩
      rw [List.drop_left' (show tokICMPV6.length = 6 from rfl)]
      exact Bool.or_eq_true_iff.mpr
        (Or.inr ((containsSub_iff tok155 _).mpr ⟨m, q, by simp [List.append_assoc]⟩))

end NetAttacksA

namespace NetAttacksA

theorem RPL_CTRL_PATTERN_iff (line : List Char) :
    RPL_CTRL_PATTERN line = true ↔ CtrlAmendedProp line := by
  unfold RPL_CTRL_PATTERN CtrlAmendedProp CtrlRplKw CtrlWholeWord CtrlIcmpOrdered
  rw [Bool.or_eq_true_iff, Bool.or_eq_true_iff,
    bdScan_iff rplKwAt _ rplKwAt_iff, bdScan_iff ctrlKwAt _ ctrlKwAt_iff, icmp_any_iff]
  constructor
  · rintro ((⟨pre, rest, heq, hb, kw, w, q, hmem, rfl, hw, hq⟩ |
      ⟨pre, rest, heq, hb, kw, q, hmem, rfl, hq⟩) | ⟨p, m, q, h | h⟩)
    · exact Or.inl ⟨kw, pre, w, q, hmem,
        by rw [heq]; simp [List.append_assoc], hb, hw, hq⟩
    · exact Or.inr (Or.inl ⟨kw, pre, q, hmem,
        by rw [heq]; simp [List.append_assoc], hb, hq⟩)
    · exact Or.inr (Or.inr ⟨p, m, q, Or.inl (by rw [h]; simp [List.append_assoc])⟩)
    · exact Or.inr (Or.inr ⟨p, m, q, Or.inr (by rw [h]; simp [List.append_assoc])⟩)
  · rintro (⟨kw, p, w, q, hmem, heq, hb, hw, hq⟩ |
      ⟨kw, p, q, hmem, heq, hb, hq⟩ | ⟨p, m, q, h | h⟩)
    · exact Or.inl (Or.inl ⟨p, tokRPL ++ (w ++ (kw ++ q)),
        by rw [heq]; simp [List.append_assoc], hb, kw, w, q, hmem, rfl, hw, hq⟩)
    · exact Or.inl (Or.inr ⟨p, kw ++ q,
        by rw [heq]; simp [List.append_assoc], hb, kw, q, hmem, rfl, hq⟩)
    · exact Or.inr ⟨p, m, q, Or.inl (by rw [h]; simp [List.append_assoc])⟩
    · exact Or.inr ⟨p, m, q, Or.inr (by rw [h]; simp [List.append_assoc])⟩

theorem logStep_ctrl (st : LogState) (l : List Char) :
    (logStep st l).ctrl_count = st.ctrl_count + (if RPL_CTRL_PATTERN l then 1 else 0) := by
  unfold logStep
  rcases he : energySearch l with _ | v <;>
    rcases hn : containsSub ("Node id is set to".toList) l <;>
      rcases hd : nodeIdSearch l with _ | d <;>
        rcases hx : etxSearch l with _ | x <;>
          rcases hc : RPL_CTRL_PATTERN l <;>
            simp [he, hn, hd, hx, hc] <;> split <;> simp

theorem logRun_ctrl (lines : List (List Char)) : ∀ st : LogState,
    (lines.foldl logStep st).ctrl_count
      = st.ctrl_count + lines.countP (fun l => RPL_CTRL_PATTERN l) := by
  induction lines with
  | nil => intro st; simp
  | cons l ls ih =>
    intro st
    rw [List.foldl_cons, ih, logStep_ctrl, List.countP_cons]
    by_cases h : RPL_CTRL_PATTERN l = true <;> simp [h] <;> omega

/-- C6 counterexample: the line `"rpl packet seen before icmpv6 header"`
contains both the lower-layer marker `icmpv6` and the protocol name
`rpl` — in the order protocol-then-marker — yet `RPL_CTRL_PATTERN` does
not match and `ctrl_count` stays 0: the regex `icmpv6.*(rpl|155)`
requires the marker to come first, not "either order". -/
theorem claim_C6_counterexample :
    ctrlClaimEitherOrder lineRplThenIcmp = true ∧
    containsSub tokICMPV6 (lineRplThenIcmp.map lowerChar) = true ∧
    containsSub tokRPL (lineRplThenIcmp.map lowerChar) = true ∧
    RPL_CTRL_PATTERN lineRplThenIcmp = false ∧
    (logRun [lineRplThenIcmp]).ctrl_count = 0 := by
  refine ⟨by decide, by decide, by decide, by decide, by decide⟩

/-- C6 amended: `ctrl_count` counts exactly the lines matched by
`RPL_CTRL_PATTERN`, and a line matches if and only if (case-insensitively)
it contains `RPL` (at a word boundary) followed by optional whitespace
and a whole-word control-frame name, or a whole-word `DIO`/`DAO`/`DIS`,
or the marker `icmpv6` followed — later on the line, in this order
only — by `rpl` or `155`. -/
theorem claim_C6_amended (line : List Char) (lines : List (List Char)) :
    (RPL_CTRL_PATTERN line = true ↔ CtrlAmendedProp line) ∧
    (logRun lines).ctrl_count = lines.countP (fun l => RPL_CTRL_PATTERN l) := by
  refine ⟨RPL_CTRL_PATTERN_iff line, ?_⟩
  have h := logRun_ctrl lines ⟨0, [], 0, []⟩
  unfold logRun
  rw [h]
  simp

end NetAttacksA
